import Mathlib

/-!
Verification of the timestamp-keyed binary search tree implemented in
`temp_humid_bst.c` (header `temp_humid_bst.h`).  The C structures are
embedded shallowly:

* `Data_t` mirrors the C struct of the same name: a signed `time_t`
  timestamp (modelled as `Int`) plus two unsigned 32-bit readings
  (modelled as `Nat`; the code never performs arithmetic on them).
* A `Node_t*` field is either `NULL` or a node owning its two subtrees,
  so the pointer structure reachable from a node is the inductive type
  `BTree` (`leaf` stands for `NULL`).
* `Tree_t` mirrors the C struct: the root pointer and the node count.
* `NULL` handles of type `Tree_t*` are modelled with `Option Tree_t`,
  and the `malloc` outcome inside `insert` with a boolean oracle, in
  `insert_impl`.

Functions are translated from the C source: the iterative descent loops
of `insert` and `search` become structural recursion on the subtree the
loop's `current` pointer walks into.
-/

namespace THBst

/-- Translation of the C struct `Data_t` from `temp_humid_bst.h`:
`time_t timestamp; uint32_t temp; uint32_t humid;`. -/
structure Data_t where
  timestamp : Int
  temp : Nat
  humid : Nat
deriving DecidableEq, Repr

/-- Pointer structure reachable from a `Node_t*`: either `NULL` (`leaf`)
or a `Node_t` with its data and its two child pointers. -/
inductive BTree where
  | leaf : BTree
  | node (data : Data_t) (left : BTree) (right : BTree) : BTree
deriving DecidableEq, Repr

/-- Translation of the C struct `Tree_t`: root pointer and node count
(a C `int` that is initialised to 0 and only ever incremented, hence a
`Nat`). -/
structure Tree_t where
  root : BTree
  node_count : Nat
deriving DecidableEq, Repr

/-- The node built by `insert` right after a successful `malloc`:
`new_node->data = info; new_node->left = NULL; new_node->right = NULL;`. -/
def newNode (info : Data_t) : BTree :=
  .node info .leaf .leaf

/-- The descent loop of `insert` in `temp_humid_bst.c` (lines 74-92):
walk down comparing `info.timestamp` with the current node's timestamp
(`<` goes left, otherwise right) and attach `newNode info` in the first
absent child slot.  Entering the loop at `NULL` corresponds to the
empty-tree case handled just above the loop in the C code. -/
def insertNode (info : Data_t) : BTree → BTree
  | .leaf => newNode info
  | .node d l r =>
      if info.timestamp < d.timestamp then
        .node d (insertNode info l) r
      else
        .node d l (insertNode info r)

/-- Successful-path `insert` on a valid tree: attach the new node via the
descent and increment `node_count` (the C code increments it in both the
empty-tree branch and the populated branch). -/
def insert (tree : Tree_t) (info : Data_t) : Tree_t :=
  { root := insertNode info tree.root, node_count := tree.node_count + 1 }

/-- Full control flow of the C function `insert`, including the `NULL`
tree check and the `malloc` outcome (`allocOk`).  Returns the C return
value (`Node_t*`, i.e. the new node or `NULL`) together with the tree
state after the call. -/
def insert_impl : Option Tree_t → Bool → Data_t → Option BTree × Option Tree_t
  | none, _, _ => (none, none)
  | some tree, allocOk, info =>
      if allocOk then (some (newNode info), some (insert tree info))
      else (none, some tree)

/-- Successful-path `create_tree`: `root = NULL`, `node_count = 0`. -/
def create_tree : Tree_t :=
  { root := .leaf, node_count := 0 }

/-- Inserting a whole list of readings in order, starting from a given
tree. -/
def insertAll (tree : Tree_t) (rs : List Data_t) : Tree_t :=
  rs.foldl insert tree

/-- The search loop of `search` in `temp_humid_bst.c` (lines 117-134):
stop at `NULL` or at the first node whose timestamp equals the query,
otherwise go left on `<` and right on `>`.  Returns the `Node_t*` the
loop stops at, i.e. the found node (with its subtrees) or `NULL`. -/
def searchNode (timestamp : Int) : BTree → Option BTree
  | .leaf => none
  | .node d l r =>
      if d.timestamp = timestamp then some (.node d l r)
      else if timestamp < d.timestamp then searchNode timestamp l
      else searchNode timestamp r

/-- The nodes the search loop visits and prints before stopping (each
iteration prints `current` and then descends); the matching node itself
is not part of this trace. -/
def searchVisits (timestamp : Int) : BTree → List Data_t
  | .leaf => []
  | .node d l r =>
      if d.timestamp = timestamp then []
      else if timestamp < d.timestamp then d :: searchVisits timestamp l
      else d :: searchVisits timestamp r

/-- The C function `search` on a valid tree: reject a negative timestamp
before any descent, otherwise run the loop from the root. -/
def search (tree : Tree_t) (timestamp : Int) : Option BTree :=
  if timestamp < 0 then none
  else searchNode timestamp tree.root

/-- Visit trace of the C function `search` on a valid tree: a negative
timestamp returns before the loop, so nothing is visited. -/
def search_trace (tree : Tree_t) (timestamp : Int) : List Data_t :=
  if timestamp < 0 then []
  else searchVisits timestamp tree.root

/-- The C function `search` including the `NULL` tree check. -/
def search_c : Option Tree_t → Int → Option BTree
  | none, _ => none
  | some tree, timestamp => search tree timestamp

/-- The recursive helper `in_order_recursive`: left subtree, own data,
right subtree.  The embedding returns the sequence of readings printed. -/
def in_order_recursive : BTree → List Data_t
  | .leaf => []
  | .node d l r => in_order_recursive l ++ d :: in_order_recursive r

/-- The C function `in_order` on a valid tree. -/
def in_order (tree : Tree_t) : List Data_t :=
  in_order_recursive tree.root

/-- The C function `in_order` including the `NULL` tree check, which
makes it a no-op (nothing traversed). -/
def in_order_c : Option Tree_t → List Data_t
  | none => []
  | some tree => in_order tree

/-- The helper `delete_tree_recursive`: the post-order sequence in which
node data is freed (left subtree, right subtree, then the node). -/
def delete_tree_recursive : BTree → List Data_t
  | .leaf => []
  | .node d l r => delete_tree_recursive l ++ delete_tree_recursive r ++ [d]

/-- The C function `delete_tree` including the `NULL` check, modelled by
the sequence of node data it frees: a `NULL` tree frees nothing. -/
def delete_tree_c : Option Tree_t → List Data_t
  | none => []
  | some tree => delete_tree_recursive tree.root

/-- Every reading stored in a (sub)tree satisfies `p`. -/
def ForallTree (p : Data_t → Prop) : BTree → Prop
  | .leaf => True
  | .node d l r => p d ∧ ForallTree p l ∧ ForallTree p r

/-- The binary-search-tree invariant of the spec (section 3): at every
node, all timestamps in the left subtree are strictly smaller than the
node's own, and all timestamps in the right subtree are greater than or
equal to it. -/
def BST : BTree → Prop
  | .leaf => True
  | .node d l r =>
      ForallTree (fun x => x.timestamp < d.timestamp) l ∧
      ForallTree (fun x => d.timestamp ≤ x.timestamp) r ∧
      BST l ∧ BST r

/-- Insertion of a reading into a list just after every entry whose
timestamp is less than or equal to its own; on a sorted list this is
exactly where the BST descent with right-going ties places it. -/
def insertUpper (x : Data_t) : List Data_t → List Data_t
  | [] => [x]
  | y :: ys =>
      if x.timestamp < y.timestamp then x :: y :: ys
      else y :: insertUpper x ys

/-- Directions taken by the insert descent of `insert` before it stops
at an absent child slot: `false` is a step left, `true` a step right. -/
def insertPath (info : Data_t) : BTree → List Bool
  | .leaf => []
  | .node d l r =>
      if info.timestamp < d.timestamp then false :: insertPath info l
      else true :: insertPath info r

/-- The subtree (possibly `leaf`, i.e. `NULL`) reached by following a
list of directions; `none` when the path runs off the tree. -/
def subtreeAt : BTree → List Bool → Option BTree
  | t, [] => some t
  | .leaf, _ :: _ => none
  | .node _ l r, b :: p => subtreeAt (if b then r else l) p

/-- Replace the subtree at the end of a path; every node off that path
keeps its data and both of its child links verbatim. -/
def replaceAt : BTree → List Bool → BTree → BTree
  | _, [], s => s
  | .leaf, _ :: _, _ => .leaf
  | .node d l r, b :: p, s =>
      if b then .node d l (replaceAt r p s) else .node d (replaceAt l p s) r

/-- Readings listed by the in-order traversal of a subtree all satisfy a
property holding everywhere in the subtree. -/
theorem ForallTree.mem_in_order {p : Data_t → Prop} :
    ∀ {t : BTree}, ForallTree p t → ∀ x ∈ in_order_recursive t, p x := by
  intro t
  induction t with
  | leaf =>
    intro _ x hx
    simp [in_order_recursive] at hx
  | node d l r ihl ihr =>
    intro h x hx
    rcases h with ⟨hd, hl, hr⟩
    rcases (by simpa [in_order_recursive] using hx :
        x ∈ in_order_recursive l ∨ x = d ∨ x ∈ in_order_recursive r) with hx | rfl | hx
    · exact ihl hl x hx
    · exact hd
    · exact ihr hr x hx

/-- The descent attaches a new node without disturbing a property that
both the tree and the new reading satisfy. -/
theorem forallTree_insertNode {p : Data_t → Prop} {x : Data_t} (hx : p x) :
    ∀ {t : BTree}, ForallTree p t → ForallTree p (insertNode x t) := by
  intro t
  induction t with
  | leaf =>
    intro _
    exact ⟨hx, trivial, trivial⟩
  | node d l r ihl ihr =>
    intro h
    rcases h with ⟨hd, hl, hr⟩
    by_cases hlt : x.timestamp < d.timestamp
    · simp only [insertNode, if_pos hlt]
      exact ⟨hd, ihl hl, hr⟩
    · simp only [insertNode, if_neg hlt]
      exact ⟨hd, hl, ihr hr⟩

/-- The insertion descent preserves the BST ordering invariant. -/
theorem bst_insertNode (x : Data_t) :
    ∀ {t : BTree}, BST t → BST (insertNode x t) := by
  intro t
  induction t with
  | leaf =>
    intro _
    exact ⟨trivial, trivial, trivial, trivial⟩
  | node d l r ihl ihr =>
    intro h
    rcases h with ⟨hfl, hfr, hl, hr⟩
    by_cases hlt : x.timestamp < d.timestamp
    · simp only [insertNode, if_pos hlt]
      exact ⟨forallTree_insertNode hlt hfl, hfr, ihl hl, hr⟩
    · simp only [insertNode, if_neg hlt]
      exact ⟨hfl, forallTree_insertNode (show d.timestamp ≤ x.timestamp by omega) hfr,
        hl, ihr hr⟩

/-- Any tree grown from a BST by a sequence of inserts is a BST. -/
theorem bst_insertAll (rs : List Data_t) :
    ∀ tree : Tree_t, BST tree.root → BST (insertAll tree rs).root := by
  induction rs with
  | nil =>
    intro tree h
    exact h
  | cons a rs ih =>
    intro tree h
    exact ih (insert tree a) (bst_insertNode a h)

/-- When the new reading sorts strictly below `d`, inserting it into a
list that continues with `d` keeps the tail untouched. -/
theorem insertUpper_append_lt {x d : Data_t} (B : List Data_t)
    (h : x.timestamp < d.timestamp) :
    ∀ A : List Data_t, insertUpper x (A ++ d :: B) = insertUpper x A ++ d :: B := by
  intro A
  induction A with
  | nil => simp [insertUpper, h]
  | cons a A ih =>
    by_cases hxa : x.timestamp < a.timestamp
    · simp [insertUpper, hxa]
    · simp [insertUpper, hxa, ih]

/-- When the new reading sorts at or above `d` and above everything in
the prefix, the insertion happens in the tail. -/
theorem insertUpper_append_ge {x d : Data_t} (B : List Data_t)
    (hd : ¬ x.timestamp < d.timestamp) :
    ∀ A : List Data_t, (∀ a ∈ A, ¬ x.timestamp < a.timestamp) →
      insertUpper x (A ++ d :: B) = A ++ d :: insertUpper x B := by
  intro A
  induction A with
  | nil =>
    intro _
    simp [insertUpper, hd]
  | cons a A ih =>
    intro hA
    have hxa := hA a (by simp)
    simp only [List.cons_append, insertUpper, if_neg hxa, List.cons.injEq, true_and]
    exact ih fun b hb => hA b (by simp [hb])

/-- Key commutation lemma: on a BST, the in-order listing of the tree
after the insertion descent is the sorted-position insertion of the new
reading after all entries with a less-or-equal timestamp. -/
theorem in_order_insertNode (x : Data_t) :
    ∀ {t : BTree}, BST t →
      in_order_recursive (insertNode x t) = insertUpper x (in_order_recursive t) := by
  intro t
  induction t with
  | leaf =>
    intro _
    rfl
  | node d l r ihl ihr =>
    intro h
    rcases h with ⟨hfl, hfr, hl, hr⟩
    by_cases hlt : x.timestamp < d.timestamp
    · simp only [insertNode, if_pos hlt, in_order_recursive, ihl hl]
      rw [insertUpper_append_lt _ hlt]
    · simp only [insertNode, if_neg hlt, in_order_recursive, ihr hr]
      have hA : ∀ a ∈ in_order_recursive l, ¬ x.timestamp < a.timestamp := by
        intro a ha
        have had := ForallTree.mem_in_order hfl a ha
        omega
      rw [insertUpper_append_ge _ hlt _ hA]

/-- Membership in an `insertUpper` result. -/
theorem mem_insertUpper {a x : Data_t} :
    ∀ {l : List Data_t}, a ∈ insertUpper x l ↔ a = x ∨ a ∈ l := by
  intro l
  induction l with
  | nil => simp [insertUpper]
  | cons y ys ih =>
    by_cases h : x.timestamp < y.timestamp
    · simp [insertUpper, h]
    · simp only [insertUpper, if_neg h, List.mem_cons, ih]
      tauto

/-- `insertUpper` is insertion: the result is a permutation of consing. -/
theorem insertUpper_perm (x : Data_t) :
    ∀ l : List Data_t, List.Perm (insertUpper x l) (x :: l) := by
  intro l
  induction l with
  | nil => exact List.Perm.refl _
  | cons y ys ih =>
    by_cases h : x.timestamp < y.timestamp
    · simp [insertUpper, h]
    · simp only [insertUpper, if_neg h]
      exact (ih.cons y).trans (List.Perm.swap x y ys)

/-- `insertUpper` keeps a timestamp-sorted list sorted. -/
theorem pairwise_insertUpper (x : Data_t) :
    ∀ {l : List Data_t}, l.Pairwise (fun a b => a.timestamp ≤ b.timestamp) →
      (insertUpper x l).Pairwise (fun a b => a.timestamp ≤ b.timestamp) := by
  intro l
  induction l with
  | nil =>
    intro _
    simp [insertUpper]
  | cons y ys ih =>
    intro h
    rcases List.pairwise_cons.mp h with ⟨hy, hys⟩
    by_cases hxy : x.timestamp < y.timestamp
    · simp only [insertUpper, if_pos hxy]
      refine List.pairwise_cons.mpr ⟨?_, h⟩
      intro b hb
      rcases List.mem_cons.mp hb with rfl | hb
      · exact le_of_lt hxy
      · exact le_trans (le_of_lt hxy) (hy b hb)
    · simp only [insertUpper, if_neg hxy]
      refine List.pairwise_cons.mpr ⟨?_, ih hys⟩
      intro b hb
      rcases mem_insertUpper.mp hb with rfl | hb
      · exact le_of_not_lt hxy
      · exact hy b hb

/-- `insertUpper` adds exactly one entry. -/
theorem length_insertUpper (x : Data_t) :
    ∀ l : List Data_t, (insertUpper x l).length = l.length + 1 := by
  intro l
  induction l with
  | nil => rfl
  | cons y ys ih =>
    by_cases h : x.timestamp < y.timestamp
    · simp [insertUpper, h]
    · simp only [insertUpper, if_neg h, List.length_cons, ih]

/-- Sortedness of the traversal is preserved along any insert sequence. -/
theorem sorted_in_order_insertAll (rs : List Data_t) :
    ∀ tree : Tree_t, BST tree.root →
      (in_order tree).Pairwise (fun a b => a.timestamp ≤ b.timestamp) →
      (in_order (insertAll tree rs)).Pairwise (fun a b => a.timestamp ≤ b.timestamp) := by
  induction rs with
  | nil =>
    intro tree _ h
    exact h
  | cons a rs ih =>
    intro tree hbst hsorted
    refine ih (insert tree a) (bst_insertNode a hbst) ?_
    show (in_order_recursive (insertNode a tree.root)).Pairwise _
    rw [in_order_insertNode a hbst]
    exact pairwise_insertUpper a hsorted

/-- Node count after a sequence of inserts. -/
theorem node_count_insertAll (rs : List Data_t) :
    ∀ tree : Tree_t, (insertAll tree rs).node_count = tree.node_count + rs.length := by
  induction rs with
  | nil =>
    intro tree
    rfl
  | cons a rs ih =>
    intro tree
    show (insertAll (insert tree a) rs).node_count = tree.node_count + (a :: rs).length
    rw [ih (insert tree a)]
    simp only [insert, List.length_cons]
    omega

/-- The insertion descent grows the traversal by exactly one entry. -/
theorem length_in_order_insertNode (x : Data_t) :
    ∀ t : BTree, (in_order_recursive (insertNode x t)).length =
      (in_order_recursive t).length + 1 := by
  intro t
  induction t with
  | leaf => rfl
  | node d l r ihl ihr =>
    by_cases h : x.timestamp < d.timestamp
    · simp only [insertNode, if_pos h, in_order_recursive, List.length_append,
        List.length_cons, ihl]
      omega
    · simp only [insertNode, if_neg h, in_order_recursive, List.length_append,
        List.length_cons, ihr]
      omega

/-- Traversal length after a sequence of inserts. -/
theorem length_in_order_insertAll (rs : List Data_t) :
    ∀ tree : Tree_t, (in_order (insertAll tree rs)).length =
      (in_order tree).length + rs.length := by
  induction rs with
  | nil =>
    intro tree
    rfl
  | cons a rs ih =>
    intro tree
    show (in_order (insertAll (insert tree a) rs)).length =
      (in_order tree).length + (a :: rs).length
    rw [ih (insert tree a)]
    show (in_order_recursive (insertNode a tree.root)).length + rs.length = _
    rw [length_in_order_insertNode a tree.root]
    simp only [List.length_cons, in_order]
    omega

/-- C1: for every sequence of readings inserted (via `insert`) into a
tree obtained from `create_tree`, the in-order traversal lists the
timestamps in non-decreasing order. -/
theorem c1_in_order_sorted (rs : List Data_t) :
    (in_order (insertAll create_tree rs)).Pairwise
      (fun a b => a.timestamp ≤ b.timestamp) :=
  sorted_in_order_insertAll rs create_tree trivial List.Pairwise.nil

/-- C2: every tree built by a sequence of inserts from `create_tree`
satisfies the BST invariant: at every node, the left subtree holds
strictly smaller timestamps and the right subtree holds
greater-or-equal timestamps. -/
theorem c2_bst_invariant (rs : List Data_t) :
    BST (insertAll create_tree rs).root :=
  bst_insertAll rs create_tree trivial

/-- C4: after N successful inserts into a fresh tree, the node count is
N and the in-order traversal yields exactly N readings. -/
theorem c4_count_invariant (rs : List Data_t) :
    (insertAll create_tree rs).node_count = rs.length ∧
    (in_order (insertAll create_tree rs)).length = rs.length := by
  constructor
  · rw [node_count_insertAll rs create_tree]
    simp [create_tree]
  · rw [length_in_order_insertAll rs create_tree]
    simp [in_order, create_tree, in_order_recursive]

/-- Whatever the search loop returns is a node of the tree whose
timestamp equals the query. -/
theorem searchNode_some {ts : Int} :
    ∀ {t n : BTree}, searchNode ts t = some n →
      ∃ d l r, n = BTree.node d l r ∧ d.timestamp = ts ∧ d ∈ in_order_recursive t := by
  intro t
  induction t with
  | leaf =>
    intro n h
    simp [searchNode] at h
  | node d l r ihl ihr =>
    intro n h
    by_cases heq : d.timestamp = ts
    · simp only [searchNode, if_pos heq, Option.some.injEq] at h
      exact ⟨d, l, r, h.symm, heq, by simp [in_order_recursive]⟩
    · by_cases hlt : ts < d.timestamp
      · simp only [searchNode, if_neg heq, if_pos hlt] at h
        obtain ⟨d', l', r', hn, hts, hmem⟩ := ihl h
        exact ⟨d', l', r', hn, hts, by simp [in_order_recursive, hmem]⟩
      · simp only [searchNode, if_neg heq, if_neg hlt] at h
        obtain ⟨d', l', r', hn, hts, hmem⟩ := ihr h
        exact ⟨d', l', r', hn, hts, by simp [in_order_recursive, hmem]⟩

/-- On a BST, the search loop finds every stored reading's timestamp. -/
theorem searchNode_finds {x : Data_t} :
    ∀ {t : BTree}, BST t → x ∈ in_order_recursive t →
      ∃ n, searchNode x.timestamp t = some n := by
  intro t
  induction t with
  | leaf =>
    intro _ h
    simp [in_order_recursive] at h
  | node d l r ihl ihr =>
    intro hbst hmem
    rcases hbst with ⟨hfl, hfr, hl, hr⟩
    by_cases heq : d.timestamp = x.timestamp
    · exact ⟨BTree.node d l r, by simp [searchNode, heq]⟩
    · rcases (by simpa [in_order_recursive] using hmem :
          x ∈ in_order_recursive l ∨ x = d ∨ x ∈ in_order_recursive r) with hx | rfl | hx
      · have hxd := ForallTree.mem_in_order hfl x hx
        obtain ⟨n, hn⟩ := ihl hl hx
        exact ⟨n, by simp [searchNode, heq, if_pos hxd, hn]⟩
      · exact absurd rfl heq
      · have hxd := ForallTree.mem_in_order hfr x hx
        obtain ⟨n, hn⟩ := ihr hr hx
        have hnlt : ¬ x.timestamp < d.timestamp := by omega
        exact ⟨n, by simp [searchNode, heq, if_neg hnlt, hn]⟩

/-- The traversal of a tree grown by `insertAll` is a permutation of the
inserted readings followed by the original contents. -/
theorem in_order_insertAll_perm (rs : List Data_t) :
    ∀ tree : Tree_t, BST tree.root →
      List.Perm (in_order (insertAll tree rs)) (rs ++ in_order tree) := by
  induction rs with
  | nil =>
    intro tree _
    simp [insertAll, in_order]
  | cons a rs ih =>
    intro tree hbst
    have h1 := ih (insert tree a) (bst_insertNode a hbst)
    have h2 : List.Perm (in_order (insert tree a)) (a :: in_order tree) := by
      show List.Perm (in_order_recursive (insertNode a tree.root)) _
      rw [in_order_insertNode a hbst]
      exact insertUpper_perm a (in_order_recursive tree.root)
    exact h1.trans ((h2.append_left rs).trans List.perm_middle)

/-- The reading just inserted is listed by the traversal afterwards. -/
theorem mem_in_order_insertNode (x : Data_t) :
    ∀ t : BTree, x ∈ in_order_recursive (insertNode x t) := by
  intro t
  induction t with
  | leaf => simp [insertNode, newNode, in_order_recursive]
  | node d l r ihl ihr =>
    by_cases h : x.timestamp < d.timestamp
    · simp [insertNode, h, in_order_recursive, ihl]
    · simp [insertNode, h, in_order_recursive, ihr]

/-- C3 (amended): for every reading inserted with a NON-NEGATIVE
timestamp T, `search` on the resulting tree returns a node whose
timestamp equals T; for any timestamp never inserted, `search` returns
`none`.  (The original claim, quantifying over all inserted timestamps,
fails for negative ones: see the counterexample.) -/
theorem c3_search_correct (rs : List Data_t) (T : Int) :
    (0 ≤ T → T ∈ rs.map Data_t.timestamp →
      ∃ d l r, search (insertAll create_tree rs) T = some (BTree.node d l r) ∧
        d.timestamp = T) ∧
    (T ∉ rs.map Data_t.timestamp → search (insertAll create_tree rs) T = none) := by
  have hbst : BST (insertAll create_tree rs).root := bst_insertAll rs create_tree trivial
  have hperm := in_order_insertAll_perm rs create_tree trivial
  constructor
  · intro hT hmem
    obtain ⟨x, hx, hxT⟩ := List.mem_map.mp hmem
    have hxin : x ∈ in_order (insertAll create_tree rs) := by
      refine hperm.mem_iff.mpr ?_
      simp [in_order, create_tree, in_order_recursive, hx]
    obtain ⟨n, hn⟩ := searchNode_finds hbst hxin
    obtain ⟨d, l, r, rfl, hts, -⟩ := searchNode_some hn
    refine ⟨d, l, r, ?_, by rw [hts, hxT]⟩
    rw [search, if_neg (by omega)]
    rw [← hxT]
    exact hn
  · intro hmem
    by_cases hT : T < 0
    · rw [search, if_pos hT]
    · rw [search, if_neg hT]
      cases hs : searchNode T (insertAll create_tree rs).root with
      | none => rfl
      | some n =>
        exfalso
        obtain ⟨d, l, r, -, hts, hdin⟩ := searchNode_some hs
        have : d ∈ rs ++ in_order create_tree := hperm.mem_iff.mp hdin
        have hdrs : d ∈ rs := by
          simpa [in_order, create_tree, in_order_recursive] using this
        exact hmem (List.mem_map.mpr ⟨d, hdrs, hts⟩)

/-- Witness for C3 (amended) at a concrete run: insert timestamps 5 and
3, then search for 5. -/
theorem c3_search_correct_witness :
    ∃ d l r, search (insertAll create_tree [⟨5, 10, 20⟩, ⟨3, 30, 40⟩]) 5
        = some (BTree.node d l r) ∧ d.timestamp = 5 :=
  (c3_search_correct [⟨5, 10, 20⟩, ⟨3, 30, 40⟩] 5).1 (by decide) (by decide)

/-- Counterexample to C3 as stated: a reading with timestamp -1 is
inserted, yet `search` for -1 returns `none` rather than a node holding
that timestamp, because `search` rejects negative queries. -/
theorem c3_counterexample :
    ¬ ∃ n, search (insertAll create_tree [⟨-1, 0, 0⟩]) (-1) = some n := by
  rintro ⟨n, hn⟩
  rw [show search (insertAll create_tree [⟨-1, 0, 0⟩]) (-1) = none from rfl] at hn
  cases hn

/-- C5: a negative query timestamp makes `search` return `none` on every
tree, visiting no node at all. -/
theorem c5_negative_short_circuit (tree : Tree_t) (t : Int) (h : t < 0) :
    search tree t = none ∧ search_trace tree t = [] := by
  rw [search, if_pos h, search_trace, if_pos h]
  exact ⟨rfl, rfl⟩

/-- Witness for C5 on a tree containing a reading with timestamp 0 and
query -1. -/
theorem c5_negative_short_circuit_witness :
    (-1 : Int) < 0 ∧
    (search (insert create_tree ⟨0, 7, 8⟩) (-1) = none ∧
      search_trace (insert create_tree ⟨0, 7, 8⟩) (-1) = []) :=
  ⟨by decide, c5_negative_short_circuit (insert create_tree ⟨0, 7, 8⟩) (-1) (by decide)⟩

/-- C6: a `NULL` tree handle makes `insert` fail with `NULL` without
producing a tree, `search` return `NULL`, and `in_order` and
`delete_tree` no-ops that touch no node; each operation returns to the
caller (it is a total function). -/
theorem c6_null_handle (info : Data_t) (t : Int) (allocOk : Bool) :
    insert_impl none allocOk info = (none, none) ∧
    search_c none t = none ∧
    in_order_c none = [] ∧
    delete_tree_c none = [] :=
  ⟨rfl, rfl, rfl, rfl⟩

/-- C9: when allocation of the new node fails, `insert` returns `NULL`
and the tree — root, structure and node count — is exactly as before
the call. -/
theorem c9_alloc_failure_atomic (tree : Tree_t) (info : Data_t) :
    insert_impl (some tree) false info = (none, some tree) := rfl

/-- C10: `insert` accepts a reading with a negative timestamp — the
count grows and the reading shows up in the traversal — but no `search`
call can ever return the node holding it, since `search` rejects every
negative query before descending and a non-negative query only returns
nodes bearing that query timestamp. -/
theorem c10_negative_reading_unreachable (rs : List Data_t) (info : Data_t)
    (hneg : info.timestamp < 0) :
    (insert (insertAll create_tree rs) info).node_count
        = (insertAll create_tree rs).node_count + 1 ∧
    info ∈ in_order (insert (insertAll create_tree rs) info) ∧
    ∀ (t : Int) (n : BTree),
      search (insert (insertAll create_tree rs) info) t = some n →
      ∀ d l r, n = BTree.node d l r → d ≠ info := by
  refine ⟨rfl, mem_in_order_insertNode info _, ?_⟩
  intro t n hsearch d l r hn hd
  by_cases ht : t < 0
  · rw [search, if_pos ht] at hsearch
    cases hsearch
  · rw [search, if_neg ht] at hsearch
    obtain ⟨d', l', r', hn', hts, -⟩ := searchNode_some hsearch
    rw [hn] at hn'
    cases hn'
    rw [hd] at hts
    omega

/-- Witness for C10: the reading with timestamp -5 is counted and
traversed after insertion into a fresh tree. -/
theorem c10_negative_reading_unreachable_witness :
    (⟨-5, 1, 2⟩ : Data_t).timestamp < 0 ∧
    (insert (insertAll create_tree []) ⟨-5, 1, 2⟩).node_count
        = (insertAll create_tree []).node_count + 1 ∧
    (⟨-5, 1, 2⟩ : Data_t) ∈ in_order (insert (insertAll create_tree []) ⟨-5, 1, 2⟩) :=
  ⟨by decide, (c10_negative_reading_unreachable [] ⟨-5, 1, 2⟩ (by decide)).1,
    (c10_negative_reading_unreachable [] ⟨-5, 1, 2⟩ (by decide)).2.1⟩

/-- The slot the insert descent stops at is absent (`NULL`) before the
insertion. -/
theorem subtreeAt_insertPath (x : Data_t) :
    ∀ t : BTree, subtreeAt t (insertPath x t) = some BTree.leaf := by
  intro t
  induction t with
  | leaf => rfl
  | node d l r ihl ihr =>
    by_cases h : x.timestamp < d.timestamp
    · simp [insertPath, h, subtreeAt, ihl]
    · simp [insertPath, h, subtreeAt, ihr]

/-- The insert descent is exactly the replacement of the absent slot at
the end of its path by the new node: nothing else changes. -/
theorem insertNode_eq_replaceAt (x : Data_t) :
    ∀ t : BTree, insertNode x t = replaceAt t (insertPath x t) (newNode x) := by
  intro t
  induction t with
  | leaf => rfl
  | node d l r ihl ihr =>
    by_cases h : x.timestamp < d.timestamp
    · simp [insertPath, h, insertNode, replaceAt, ihl]
    · simp [insertPath, h, insertNode, replaceAt, ihr]

/-- After the insertion, the descent path leads to the new node, which
is a leaf (both children absent). -/
theorem subtreeAt_insertNode (x : Data_t) :
    ∀ t : BTree, subtreeAt (insertNode x t) (insertPath x t) = some (newNode x) := by
  intro t
  induction t with
  | leaf => rfl
  | node d l r ihl ihr =>
    by_cases h : x.timestamp < d.timestamp
    · simp [insertPath, h, insertNode, subtreeAt, ihl]
    · simp [insertPath, h, insertNode, subtreeAt, ihr]

/-- C7: a successful insert attaches the new reading as a leaf in the
single previously absent slot reached by the descent (`insertPath`),
leaves every previously existing node, reading and link unchanged (the
new root is `replaceAt` of the old root, which rewrites only the slot
at the end of the path), and increments the node count by one. -/
theorem c7_insert_frame (tree : Tree_t) (info : Data_t) :
    subtreeAt tree.root (insertPath info tree.root) = some BTree.leaf ∧
    (insert tree info).root
        = replaceAt tree.root (insertPath info tree.root) (newNode info) ∧
    subtreeAt (insert tree info).root (insertPath info tree.root)
        = some (newNode info) ∧
    (insert tree info).node_count = tree.node_count + 1 :=
  ⟨subtreeAt_insertPath info tree.root, insertNode_eq_replaceAt info tree.root,
    subtreeAt_insertNode info tree.root, rfl⟩

/-- Decomposition of an `insertUpper` result around the inserted
element: everything before it has a less-or-equal timestamp, and the
element right after it (when any) has a strictly larger one. -/
theorem insertUpper_decomp (x : Data_t) :
    ∀ l : List Data_t, ∃ P S, insertUpper x l = P ++ x :: S ∧
      (∀ y ∈ P, ¬ x.timestamp < y.timestamp) ∧
      (S = [] ∨ ∃ s S', S = s :: S' ∧ x.timestamp < s.timestamp) := by
  intro l
  induction l with
  | nil => exact ⟨[], [], rfl, by simp, Or.inl rfl⟩
  | cons y ys ih =>
    by_cases h : x.timestamp < y.timestamp
    · exact ⟨[], y :: ys, by simp [insertUpper, h], by simp, Or.inr ⟨y, ys, rfl, h⟩⟩
    · obtain ⟨P, S, heq, hP, hS⟩ := ih
      refine ⟨y :: P, S, by simp [insertUpper, h, heq], ?_, hS⟩
      intro z hz
      rcases List.mem_cons.mp hz with rfl | hz
      · exact h
      · exact hP z hz

/-- Two consecutive insertions of equal-timestamp readings land next to
each other, in insertion order, in the sorted listing. -/
theorem insertUpper_pair (a b : Data_t) (hab : b.timestamp = a.timestamp)
    (l : List Data_t) :
    ∃ pre post, insertUpper b (insertUpper a l) = pre ++ a :: b :: post := by
  obtain ⟨P, S, heq, hP, hS⟩ := insertUpper_decomp a l
  have hba : ¬ b.timestamp < a.timestamp := by omega
  have hPb : ∀ y ∈ P, ¬ b.timestamp < y.timestamp := by
    intro y hy
    have := hP y hy
    omega
  rw [heq, insertUpper_append_ge S hba P hPb]
  rcases hS with rfl | ⟨s, S', rfl, hs⟩
  · exact ⟨P, [], rfl⟩
  · refine ⟨P, s :: S', ?_⟩
    simp [insertUpper, show b.timestamp < s.timestamp by omega]

/-- C8 (amended): consecutively inserting two readings with the same
NON-NEGATIVE timestamp T into any tree grown from `create_tree` never
fails (the count grows by two), the two readings end up adjacent — in
insertion order — in the in-order traversal, and `search` for T returns
a node whose timestamp is T, found by the fixed right-going tie-break
descent `searchNode` (`search` is a function, so the result is the same
on every call).  (The original claim, with no sign restriction on T,
fails for negative T: see the counterexample.) -/
theorem c8_duplicate_timestamps (rs : List Data_t) (a b : Data_t) (T : Int)
    (ha : a.timestamp = T) (hb : b.timestamp = T) (hT : 0 ≤ T) :
    (insert (insert (insertAll create_tree rs) a) b).node_count
        = (insertAll create_tree rs).node_count + 2 ∧
    (∃ pre post, in_order (insert (insert (insertAll create_tree rs) a) b)
        = pre ++ a :: b :: post) ∧
    (∃ d l r, search (insert (insert (insertAll create_tree rs) a) b) T
        = some (BTree.node d l r) ∧ d.timestamp = T) := by
  have hbst : BST (insertAll create_tree rs).root := bst_insertAll rs create_tree trivial
  have hbst1 : BST (insertNode a (insertAll create_tree rs).root) := bst_insertNode a hbst
  have htrav : in_order (insert (insert (insertAll create_tree rs) a) b)
      = insertUpper b (insertUpper a (in_order_recursive (insertAll create_tree rs).root)) := by
    show in_order_recursive (insertNode b (insertNode a (insertAll create_tree rs).root)) = _
    rw [in_order_insertNode b hbst1, in_order_insertNode a hbst]
  obtain ⟨pre, post, hpp⟩ :=
    insertUpper_pair a b (by omega) (in_order_recursive (insertAll create_tree rs).root)
  refine ⟨rfl, ⟨pre, post, htrav.trans hpp⟩, ?_⟩
  have hain : a ∈ in_order_recursive
      (insert (insert (insertAll create_tree rs) a) b).root := by
    show a ∈ in_order (insert (insert (insertAll create_tree rs) a) b)
    rw [htrav, hpp]
    simp
  have hbst2 : BST (insert (insert (insertAll create_tree rs) a) b).root :=
    bst_insertNode b hbst1
  obtain ⟨n, hn⟩ := searchNode_finds hbst2 hain
  obtain ⟨d, l, r, rfl, hts, -⟩ := searchNode_some hn
  refine ⟨d, l, r, ?_, by omega⟩
  rw [search, if_neg (by omega), ← ha]
  exact hn

/-- Witness for C8 (amended): duplicates of timestamp 5 inserted after
timestamp 3; the count grows by two. -/
theorem c8_duplicate_timestamps_witness :
    (⟨5, 1, 1⟩ : Data_t).timestamp = 5 ∧ (⟨5, 2, 2⟩ : Data_t).timestamp = 5 ∧
    (0 : Int) ≤ 5 ∧
    (insert (insert (insertAll create_tree [⟨3, 0, 0⟩]) ⟨5, 1, 1⟩) ⟨5, 2, 2⟩).node_count
        = (insertAll create_tree [⟨3, 0, 0⟩]).node_count + 2 :=
  ⟨rfl, rfl, by decide,
    (c8_duplicate_timestamps [⟨3, 0, 0⟩] ⟨5, 1, 1⟩ ⟨5, 2, 2⟩ 5 rfl rfl (by decide)).1⟩

/-- Counterexample to C8 as stated: two readings with the identical
timestamp -1 are inserted, yet `search` for -1 returns no node at all,
because `search` rejects negative queries. -/
theorem c8_counterexample :
    ¬ ∃ n, search (insert (insert create_tree ⟨-1, 1, 2⟩) ⟨-1, 3, 4⟩) (-1) = some n := by
  rintro ⟨n, hn⟩
  rw [show search (insert (insert create_tree ⟨-1, 1, 2⟩) ⟨-1, 3, 4⟩) (-1) = none
    from rfl] at hn
  cases hn

end THBst
